import Mathlib

/-!
Verification of the Kobo-to-Google-Sheets synchronization script
(`KoboData_2RepInfCampo.py`).

The script is a single-file ETL pipeline: it fetches survey submissions,
flattens nested list/object fields into child tables (`split_nested_data`),
explodes whitespace-separated "employee list" fields into one row per token
(`expand_employees_in_subdfs`), writes the table set to a local workbook
(`save_to_excel`), and appends only not-yet-present rows to a remote
spreadsheet (`upload_to_google_sheets`), using natural keys compared as
strings.

This file is a shallow embedding of that pipeline.  Cell values are modelled
by the closed `Value` type (Python scalars, `None`, float `nan`/`inf`, and
nested lists/objects); a pandas row is an association list from column name
to value, and a DataFrame is a `Table` (column list plus row list).  Python
string operations (`split(" ")`, `strip()`, the two `re.sub` calls) are
embedded as executable character-list functions with the same semantics on
the character sets exercised here.  The remote store is a function from sheet
name to a read result, and an uncaught exception in the upload loop is
modelled by the loop returning the outcomes completed so far together with
an aborted flag.
-/

/-- Cell values of the pipeline: Python scalars (`str`, `int`, `bool`,
`None`), the floating-point specials `nan` and `±inf` (which pandas
`replace`/`fillna` treat specially), and nested containers (`list`/`dict`)
as they appear in a raw Kobo submission. -/
inductive Value where
  | vStr (s : String)
  | vNum (n : Int)
  | vBool (b : Bool)
  | vNull
  | vNaN
  | vInf (positive : Bool)
  | vList (xs : List Value)
  | vObj (kvs : List (String × Value))

mutual

/-- Boolean structural equality on `Value` (used to build decidable
equality, which the derive handler does not support for this nested
inductive type). -/
def valueBEq : Value → Value → Bool
  | Value.vStr a, Value.vStr b => a == b
  | Value.vNum a, Value.vNum b => a == b
  | Value.vBool a, Value.vBool b => a == b
  | Value.vNull, Value.vNull => true
  | Value.vNaN, Value.vNaN => true
  | Value.vInf a, Value.vInf b => a == b
  | Value.vList xs, Value.vList ys => valueListBEq xs ys
  | Value.vObj xs, Value.vObj ys => valueObjBEq xs ys
  | _, _ => false

def valueListBEq : List Value → List Value → Bool
  | [], [] => true
  | x :: xs, y :: ys => valueBEq x y && valueListBEq xs ys
  | _, _ => false

def valueObjBEq : List (String × Value) → List (String × Value) → Bool
  | [], [] => true
  | (k, v) :: xs, (l, w) :: ys => k == l && valueBEq v w && valueObjBEq xs ys
  | _, _ => false

end

lemma valueListBEq_sound_of (xs ys : List Value)
    (hx : ∀ x ∈ xs, ∀ b, valueBEq x b = true → x = b)
    (h : valueListBEq xs ys = true) : xs = ys := by
  induction xs generalizing ys with
  | nil => cases ys with
    | nil => rfl
    | cons y ys => simp [valueListBEq] at h
  | cons x xs ih =>
    cases ys with
    | nil => simp [valueListBEq] at h
    | cons y ys =>
      simp only [valueListBEq, Bool.and_eq_true] at h
      have h1 := hx x (List.mem_cons_self x xs) y h.1
      have h2 := ih ys (fun a ha => hx a (List.mem_cons_of_mem x ha)) h.2
      rw [h1, h2]

lemma valueObjBEq_sound_of (xs ys : List (String × Value))
    (hx : ∀ x ∈ xs, ∀ b, valueBEq x.2 b = true → x.2 = b)
    (h : valueObjBEq xs ys = true) : xs = ys := by
  induction xs generalizing ys with
  | nil => cases ys with
    | nil => rfl
    | cons y ys => simp [valueObjBEq] at h
  | cons x xs ih =>
    cases ys with
    | nil => cases x; simp [valueObjBEq] at h
    | cons y ys =>
      cases x with
      | mk k v =>
        cases y with
        | mk l w =>
          simp only [valueObjBEq, Bool.and_eq_true, beq_iff_eq] at h
          have h1 : v = w := hx (k, v) (List.mem_cons_self _ xs) w h.1.2
          have h2 := ih ys (fun a ha => hx a (List.mem_cons_of_mem _ ha)) h.2
          rw [h.1.1, h1, h2]

lemma valueBEq_sound_aux :
    ∀ (n : Nat) (a b : Value), sizeOf a ≤ n → valueBEq a b = true → a = b := by
  intro n
  induction n with
  | zero =>
    intro a b ha _
    exfalso
    cases a <;> simp at ha
  | succ n ih =>
    intro a b ha h
    cases a <;> cases b <;> simp only [valueBEq] at h <;>
      try exact absurd h Bool.false_ne_true
    all_goals try rfl
    case vStr.vStr a b => rw [eq_of_beq h]
    case vNum.vNum a b => rw [eq_of_beq h]
    case vBool.vBool a b => rw [eq_of_beq h]
    case vInf.vInf a b => rw [eq_of_beq h]
    case vList.vList xs ys =>
      have hs : sizeOf xs ≤ n := by simp at ha; omega
      have hx : ∀ x ∈ xs, ∀ b, valueBEq x b = true → x = b := by
        intro x hmem b
        exact ih x b (le_trans (Nat.le_of_lt (List.sizeOf_lt_of_mem hmem)) hs)
      rw [valueListBEq_sound_of xs ys hx h]
    case vObj.vObj xs ys =>
      have hs : sizeOf xs ≤ n := by simp at ha; omega
      have hx : ∀ x ∈ xs, ∀ b, valueBEq x.2 b = true → x.2 = b := by
        intro x hmem b
        have hlt : sizeOf x.2 < sizeOf xs := by
          have h1 := List.sizeOf_lt_of_mem hmem
          cases x with
          | mk k v => simp at h1 ⊢; omega
        exact ih x.2 b (le_trans (Nat.le_of_lt hlt) hs)
      rw [valueObjBEq_sound_of xs ys hx h]

lemma valueBEq_refl_aux : ∀ (n : Nat) (a : Value), sizeOf a ≤ n → valueBEq a a = true := by
  intro n
  induction n with
  | zero =>
    intro a ha
    exfalso
    cases a <;> simp at ha
  | succ n ih =>
    intro a ha
    cases a <;> simp only [valueBEq, beq_self_eq_true] <;> try rfl
    case vList xs =>
      have hs : sizeOf xs ≤ n := by simp at ha; omega
      induction xs with
      | nil => rfl
      | cons x xs ihl =>
        simp only [valueListBEq, Bool.and_eq_true]
        constructor
        · exact ih x (le_trans (Nat.le_of_lt (List.sizeOf_lt_of_mem (List.mem_cons_self x xs))) hs)
        · exact ihl (by simp at ha ⊢; omega) (by simp at hs ⊢; omega)
    case vObj xs =>
      have hs : sizeOf xs ≤ n := by simp at ha; omega
      induction xs with
      | nil => rfl
      | cons x xs ihl =>
        cases x with
        | mk k v =>
          simp only [valueObjBEq, Bool.and_eq_true, beq_self_eq_true, true_and]
          constructor
          · refine ih v (le_trans ?_ hs)
            have := List.sizeOf_lt_of_mem (List.mem_cons_self (k, v) xs)
            simp at this ⊢
            omega
          · exact ihl (by simp at ha ⊢; omega) (by simp at hs ⊢; omega)

instance : DecidableEq Value := fun a b =>
  decidable_of_iff (valueBEq a b = true)
    ⟨valueBEq_sound_aux (sizeOf a) a b le_rfl,
     fun h => h ▸ valueBEq_refl_aux (sizeOf a) a le_rfl⟩

/-- A pandas row: an association list from column name to cell value
(insertion-ordered, like a Python dict / pandas Series). -/
abbrev Row : Type := List (String × Value)

/-- A DataFrame: its column labels and its rows. -/
structure Table where
  cols : List String
  rows : List Row
deriving DecidableEq

/-- Value of `row[col]` (`vNull` when the column is absent, which never
happens for rows materialized from a DataFrame). -/
def getVal (r : Row) (c : String) : Value :=
  match List.find? (fun kv => kv.1 == c) r with
  | some kv => kv.2
  | none => Value.vNull

/-- Embedding of `new_row[col] = v` on a row copied from a DataFrame: the
entry for `col` gets the new value, all other entries are kept. -/
def setVal (r : Row) (c : String) (v : Value) : Row :=
  List.map (fun kv => if kv.1 == c then (c, v) else kv) r

/-- Embedding of Python dict assignment `row[k] = v`: overwrite in place if
the key exists, otherwise append the pair. -/
def dictInsert (r : Row) (k : String) (v : Value) : Row :=
  if List.any r (fun kv => kv.1 == k) then
    List.map (fun kv => if kv.1 == k then (k, v) else kv) r
  else r ++ [(k, v)]

/-- True for the values `isinstance(x, (list, dict))` reports as nested. -/
def isNested : Value → Bool
  | Value.vList _ => true
  | Value.vObj _ => true
  | _ => false

/-- True for the values `pd.isna` reports as missing (`None` and `nan`). -/
def isNA : Value → Bool
  | Value.vNull => true
  | Value.vNaN => true
  | _ => false

/-- True for float `inf`/`-inf` and `nan` (the values the script normalizes
with `replace([np.inf, -np.inf], np.nan).fillna("")`). -/
def isNaNInf : Value → Bool
  | Value.vNaN => true
  | Value.vInf _ => true
  | _ => false

/-- Minimal JSON string escaping (backslash and double quote), standing in
for the escaping `json.dumps` performs; the claims never depend on the
escaped text of a serialized cell. -/
def jsonEscape (s : String) : String :=
  String.mk (List.flatMap s.data (fun c =>
    if c = '"' then ['\\', '"'] else if c = '\\' then ['\\', '\\'] else [c]))

mutual

/-- Embedding of `json.dumps(value, ensure_ascii=False)` on a `Value`
(default separators `", "` and `": "`; `nan`/`inf` serialize to the Python
extensions `NaN`/`Infinity`). -/
def jsonDumps : Value → String
  | Value.vStr s => "\"" ++ jsonEscape s ++ "\""
  | Value.vNum n => toString n
  | Value.vBool b => if b then "true" else "false"
  | Value.vNull => "null"
  | Value.vNaN => "NaN"
  | Value.vInf b => if b then "Infinity" else "-Infinity"
  | Value.vList xs => "[" ++ String.intercalate ", " (jsonDumpsList xs) ++ "]"
  | Value.vObj kvs => "\x7b" ++ String.intercalate ", " (jsonDumpsObj kvs) ++ "\x7d"

def jsonDumpsList : List Value → List String
  | [] => []
  | x :: xs => jsonDumps x :: jsonDumpsList xs

def jsonDumpsObj : List (String × Value) → List String
  | [] => []
  | (k, v) :: kvs => ("\"" ++ jsonEscape k ++ "\": " ++ jsonDumps v) :: jsonDumpsObj kvs

end

/-- Embedding of Python `str()` as used by `.astype(str)` on key columns.
Containers are rendered via their JSON text as a stand-in for Python `repr`
(no claim depends on the cast of a container or float special). -/
def pyStr : Value → String
  | Value.vStr s => s
  | Value.vNum n => toString n
  | Value.vBool b => if b then "True" else "False"
  | Value.vNull => "None"
  | Value.vNaN => "nan"
  | Value.vInf b => if b then "inf" else "-inf"
  | Value.vList xs => "[" ++ String.intercalate ", " (jsonDumpsList xs) ++ "]"
  | Value.vObj kvs => "\x7b" ++ String.intercalate ", " (jsonDumpsObj kvs) ++ "\x7d"

/-- Whitespace class of Python's `str.strip()` and regex `\s`. -/
def isPyWs (c : Char) : Bool :=
  c = ' ' || c = '\t' || c = '\n' || c = '\r' || c = '\x0b' || c = '\x0c'

/-- Characters matched by the character class of
`re.sub(r"[\/\\\?\*\[\]\:]", "_", name)`. -/
def invalidSheetChars : List Char :=
  ['/', '\\', '?', '*', '[', ']', ':']

/-- Single-character action of `re.sub(r"[\/\\\?\*\[\]\:]", "_", name)`:
each invalid character becomes an underscore (the class only matches single
characters, so the substitution is a character map). -/
def replChar (c : Char) : Char :=
  if invalidSheetChars.contains c then '_' else c

/-- Embedding of `re.sub(r"\s+", "_", cleaned)`: scan the characters with a
flag saying whether we are inside a whitespace run; the first character of
each run emits one underscore, the rest of the run is dropped. -/
def collapseWsAux : List Char → Bool → List Char
  | [], _ => []
  | c :: cs, inRun =>
    if isPyWs c then
      if inRun then collapseWsAux cs true else '_' :: collapseWsAux cs true
    else c :: collapseWsAux cs false

def collapseWs (l : List Char) : List Char :=
  collapseWsAux l false

/-- Embedding of `sanitize_sheet_name(name, maxlen)`.  The Python parameter
is dynamically typed (`isinstance(name, str)` is checked at run time), so
the input is a `Value`; a non-string or empty input falls back to the name
`"sheet"`.  Then invalid characters become underscores, whitespace runs
collapse to one underscore, and the result is cut at `maxlen` characters
(`[:maxlen]`). -/
def sanitize_sheet_name (name : Value) (maxlen : Nat) : String :=
  let base : String :=
    match name with
    | Value.vStr s => if s.isEmpty then "sheet" else s
    | _ => "sheet"
  String.mk (List.take maxlen (collapseWs (List.map replChar base.data)))

/-- Embedding of Python `val.split(" ")` on a character list, processed from
the right: the first component is the fragment before the first space, the
second the remaining fragments.  Like Python, consecutive separators produce
empty fragments and `"".split(" ") == [""]`. -/
def pySplitSpAux : List Char → List Char × List (List Char)
  | [] => ([], [])
  | c :: cs =>
    let r := pySplitSpAux cs
    if c = ' ' then ([], r.1 :: r.2) else (c :: r.1, r.2)

def pySplitSp (l : List Char) : List (List Char) :=
  (pySplitSpAux l).1 :: (pySplitSpAux l).2

/-- Embedding of Python `str.strip()`: drop whitespace from both ends. -/
def pyStrip (l : List Char) : List Char :=
  (((l.dropWhile isPyWs).reverse.dropWhile isPyWs).reverse)

/-- Embedding of the comprehension
`[emp.strip() for emp in val.split(" ") if emp.strip()]`: split on single
spaces, strip each fragment, keep the non-empty results. -/
def splitEmployees (s : String) : List String :=
  List.filter (fun e => !e.isEmpty)
    (List.map (fun f => String.mk (pyStrip f)) (pySplitSp s.data))

/-- Keyword substrings of `expand_employees_in_subdfs`. -/
def employee_keywords : List String :=
  ["TiqueteCajon", "TiqueteCable", "OperariosCosecha"]

/-- Embedding of Python `needle in hay` on strings (substring test), used by
`any(key in col for key in employee_keywords)`. -/
def containsSub (hay needle : String) : Bool :=
  List.any hay.data.tails (fun t => List.isPrefixOf needle.data t)

def isEmployeeCol (c : String) : Bool :=
  List.any employee_keywords (fun k => containsSub c k)

/-- Per-row body of the expansion loop: if the cell at `c` is a string
containing a space, one copy of the row per kept token, with the cell
replaced by the token; otherwise the row itself. -/
def expandRow (c : String) (r : Row) : List Row :=
  match getVal r c with
  | Value.vStr s =>
    if s.data.contains ' ' then
      List.map (fun emp => setVal r c (Value.vStr emp)) (splitEmployees s)
    else [r]
  | _ => [r]

/-- The row loop `for _, row in df_expanded.iterrows(): ...` for one keyword
column: rows are processed independently in order, each contributing the
rows `expandRow` yields. -/
def expandColRows (c : String) : List Row → List Row
  | [] => []
  | r :: rs => expandRow c r ++ expandColRows c rs

/-- The column loop `for col in df.columns`: keyword columns rebuild the row
list, other columns leave it unchanged. -/
def expandTableCols : List String → List Row → List Row
  | [], rows => rows
  | c :: cs, rows =>
    expandTableCols cs (if isEmployeeCol c then expandColRows c rows else rows)

def expandTable (t : Table) : Table :=
  { t with rows := expandTableCols t.cols t.rows }

/-- Embedding of `expand_employees_in_subdfs(dfs)`: every sheet of the dict
is expanded, keys and order preserved. -/
def expand_employees_in_subdfs (dfs : List (String × Table)) : List (String × Table) :=
  List.map (fun nt => (nt.1, expandTable nt.2)) dfs

/-- Embedding of `row_series.get("_id", idx)`: the `_id` cell when the row
has that column, else the positional index. -/
def parentIdOf (r : Row) (idx : Nat) : Value :=
  match List.find? (fun kv => kv.1 == "_id") r with
  | some kv => kv.2
  | none => Value.vNum (Int.ofNat idx)

/-- Child rows contributed by one cell of a nested column: one row per list
element (object elements spread their keys, scalars land in a `value`
column), one row for an object cell, none for a scalar cell. -/
def childRowsOfVal (pid : Value) (val : Value) : List Row :=
  match val with
  | Value.vList xs =>
    List.map
      (fun iv =>
        match iv.2 with
        | Value.vObj kvs =>
          List.foldl (fun r kv => dictInsert r kv.1 kv.2)
            [("parent_id", pid), ("item_index", Value.vNum (Int.ofNat iv.1))] kvs
        | item => [("parent_id", pid), ("item_index", Value.vNum (Int.ofNat iv.1)), ("value", item)])
      xs.enum
  | Value.vObj kvs =>
    [List.foldl (fun r kv => dictInsert r kv.1 kv.2) [("parent_id", pid)] kvs]
  | _ => []

/-- The `for idx, val in df[col].items()` loop building a nested column's
child rows, in row order then element order. -/
def buildChildRows (df : Table) (col : String) : List Row :=
  List.flatMap df.rows.enum
    (fun ir => childRowsOfVal (parentIdOf ir.2 ir.1) (getVal ir.2 col))

/-- Column union of a list of dict-rows in first-seen order, as
`pd.DataFrame(rows)` infers it. -/
def unionKeys (rows : List Row) : List String :=
  List.foldl
    (fun acc r =>
      List.foldl (fun a kv => if a.contains kv.1 then a else a ++ [kv.1]) acc r)
    [] rows

/-- Cell normalization of a freshly built child table:
`pd.DataFrame(rows)` puts `nan` where a row lacks a column, then
`replace([np.inf, -np.inf], np.nan).fillna("")` turns `±inf`, `nan` and
`None` into the empty string. -/
def cleanSubCell : Option Value → Value
  | none => Value.vStr ""
  | some v =>
    match v with
    | Value.vInf _ => Value.vStr ""
    | Value.vNaN => Value.vStr ""
    | Value.vNull => Value.vStr ""
    | x => x

/-- Embedding of `pd.DataFrame(rows).replace([np.inf, -np.inf], np.nan).fillna("")`. -/
def mkSubDf (rows : List Row) : Table :=
  let cols := unionKeys rows
  ⟨cols,
   List.map (fun r =>
     List.map (fun c =>
       (c, cleanSubCell (Option.map Prod.snd (List.find? (fun kv => kv.1 == c) r)))) cols) rows⟩

/-- Per-cell action of the parent-column serialization
`df[col].apply(lambda x: json.dumps(x, ensure_ascii=False) if isinstance(x, (list, dict)) else ("" if pd.isna(x) else x))`.
Only containers and missing values change; in particular `inf` passes
through untouched. -/
def serializeParentCell (v : Value) : Value :=
  match v with
  | Value.vList _ => Value.vStr (jsonDumps v)
  | Value.vObj _ => Value.vStr (jsonDumps v)
  | Value.vNaN => Value.vStr ""
  | Value.vNull => Value.vStr ""
  | x => x

/-- Application of `serializeParentCell` to one row's cell at `col`. -/
def serializeRowAt (col : String) (r : Row) : Row :=
  List.map (fun kv => if kv.1 == col then (kv.1, serializeParentCell kv.2) else kv) r

/-- The `for col in list(df.columns)` loop of `split_nested_data`: for each
column that holds at least one list/dict, build its child table (kept only
when non-empty) and serialize the parent column in place. -/
def splitGo (parent_name : String) :
    List String → Table → List (String × Table) → Table × List (String × Table)
  | [], df, subs => (df, subs)
  | col :: cs, df, subs =>
    if List.any df.rows (fun r => isNested (getVal r col)) then
      let rows := buildChildRows df col
      let subs' :=
        if rows.isEmpty then subs
        else subs ++ [(parent_name ++ "_" ++ col, mkSubDf rows)]
      splitGo parent_name cs { df with rows := List.map (serializeRowAt col) df.rows } subs'
    else splitGo parent_name cs df subs

/-- Embedding of `split_nested_data(df, parent_name)`: returns the flattened
parent table and the dict of child tables. -/
def split_nested_data (df : Table) (parent_name : String := "Main") :
    Table × List (String × Table) :=
  splitGo parent_name df.cols df []

/-- Embedding of `save_to_excel`: the externally visible effect modelled
here is the sheet naming — every table is written under its sanitized name
with the 31-character bound, its contents untouched. -/
def save_to_excel (dfs : List (String × Table)) : List (String × Table) :=
  List.map (fun nt => (sanitize_sheet_name (Value.vStr nt.1) 31, nt.2)) dfs

/-- Per-cell normalization before the Google Sheets upload (lines 173-178):
`replace([np.inf, -np.inf], np.nan).fillna("")` turns float specials and
missing values into the empty string. -/
def cleanCellUpload : Value → Value
  | Value.vInf _ => Value.vStr ""
  | Value.vNaN => Value.vStr ""
  | Value.vNull => Value.vStr ""
  | x => x

/-- Per-cell serialization before the upload:
`applymap(lambda x: json.dumps(x, ensure_ascii=False) if isinstance(x, (list, dict)) else x)`. -/
def serializeCellUpload : Value → Value
  | Value.vList xs => Value.vStr (jsonDumps (Value.vList xs))
  | Value.vObj kvs => Value.vStr (jsonDumps (Value.vObj kvs))
  | x => x

/-- The `df_clean` preparation of `upload_to_google_sheets`: normalize float
specials and missing values, then serialize remaining containers, cell by
cell. -/
def cleanForUpload (t : Table) : Table :=
  { t with
    rows := List.map (fun r =>
      List.map (fun kv => (kv.1, serializeCellUpload (cleanCellUpload kv.2))) r) t.rows }

/-- Embedding of the "Validación de registros nuevos" block (lines 186-226):
given the sheet's dict key `name`, the cleaned current rows and the
persisted rows, select the rows to append.  Keys are compared after
`.astype(str)`; the two-column child key is the underscore join produced by
`.agg("_".join, axis=1)`. -/
def diffNewRows (name : String) (dfc existing : Table) : List Row :=
  if name == "Main" then
    if dfc.cols.contains "_id" && existing.cols.contains "_id" then
      List.filter
        (fun r =>
          !(List.contains (List.map (fun e => pyStr (getVal e "_id")) existing.rows)
              (pyStr (getVal r "_id"))))
        dfc.rows
    else if dfc.cols.contains "submission_id" && existing.cols.contains "submission_id" then
      List.filter
        (fun r =>
          !(List.contains
              (List.map (fun e => pyStr (getVal e "submission_id")) existing.rows)
              (pyStr (getVal r "submission_id"))))
        dfc.rows
    else dfc.rows
  else
    if dfc.cols.contains "parent_id" && existing.cols.contains "parent_id" then
      if dfc.cols.contains "item_index" && existing.cols.contains "item_index" then
        List.filter
          (fun r =>
            !(List.contains
                (List.map
                  (fun e => pyStr (getVal e "parent_id") ++ "_" ++ pyStr (getVal e "item_index"))
                  existing.rows)
                (pyStr (getVal r "parent_id") ++ "_" ++ pyStr (getVal r "item_index"))))
          dfc.rows
      else
        List.filter
          (fun r =>
            !(List.contains (List.map (fun e => pyStr (getVal e "parent_id")) existing.rows)
                (pyStr (getVal r "parent_id"))))
          dfc.rows
    else dfc.rows

/-- Key columns the diff of `upload_to_google_sheets` actually uses for a
given table name and pair of column sets (`none` when no key columns are
shared, in which case every current row is treated as new). -/
def diffKeyCols (name : String) (newCols oldCols : List String) : Option (List String) :=
  if name == "Main" then
    if newCols.contains "_id" && oldCols.contains "_id" then some ["_id"]
    else if newCols.contains "submission_id" && oldCols.contains "submission_id" then
      some ["submission_id"]
    else none
  else
    if newCols.contains "parent_id" && oldCols.contains "parent_id" then
      if newCols.contains "item_index" && oldCols.contains "item_index" then
        some ["parent_id", "item_index"]
      else some ["parent_id"]
    else none

/-- String key of a row for the given key columns: the string-cast fields
joined with underscores (for a single key column this is just the cast
field, matching `.astype(str)`; for two it matches `.agg("_".join, axis=1)`). -/
def keyOfRow (ks : List String) (r : Row) : String :=
  String.intercalate "_" (List.map (fun k => pyStr (getVal r k)) ks)

/-- Result of `spreadsheet.worksheet(name)` + `get_all_records()`: the
persisted table, the `WorksheetNotFound` signal, or any other raised
exception. -/
inductive ReadResult where
  | found (t : Table)
  | notFound
  | failure
deriving DecidableEq

/-- Terminal outcome of one table's sync: the sheet name addressed, whether
the worksheet was created (with which header), and the rows appended. -/
structure TableOutcome where
  sheet : String
  created : Bool
  header : List String
  appended : List Row
deriving DecidableEq

/-- One iteration of the upload loop for table `name`: clean the rows,
sanitize the sheet name with the 100-character bound, read the store; a
found worksheet is diffed, `WorksheetNotFound` creates the sheet (header
row first) and appends everything, and any other read failure is an
uncaught exception (`none`). -/
def syncTable (store : String → ReadResult) (name : String) (df : Table) :
    Option TableOutcome :=
  let dfClean := cleanForUpload df
  let sheet := sanitize_sheet_name (Value.vStr name) 100
  match store sheet with
  | ReadResult.failure => none
  | ReadResult.notFound => some ⟨sheet, true, dfClean.cols, dfClean.rows⟩
  | ReadResult.found existing => some ⟨sheet, false, [], diffNewRows name dfClean existing⟩

/-- Embedding of the `for name, df in dfs.items()` loop of
`upload_to_google_sheets`: tables are processed in order; an uncaught
exception stops the loop, so the result is the list of outcomes reached
before the abort together with an aborted flag. -/
def upload_to_google_sheets (store : String → ReadResult) :
    List (String × Table) → List TableOutcome × Bool
  | [] => ([], false)
  | (n, df) :: rest =>
    match syncTable store n df with
    | none => ([], true)
    | some o =>
      let r := upload_to_google_sheets store rest
      (o :: r.1, r.2)

lemma list_contains_iff {α : Type} [BEq α] [LawfulBEq α] (l : List α) (a : α) :
    l.contains a = true ↔ a ∈ l := by
  simp

lemma keyOfRow_single (k : String) (r : Row) : keyOfRow [k] r = pyStr (getVal r k) := by
  simp [keyOfRow, String.intercalate, String.intercalate.go]

lemma keyOfRow_pair (k1 k2 : String) (r : Row) :
    keyOfRow [k1, k2] r = pyStr (getVal r k1) ++ "_" ++ pyStr (getVal r k2) := by
  simp [keyOfRow, String.intercalate, String.intercalate.go]

/-- Membership characterization of the incremental diff whenever key columns
are shared (the core of claims on `upload_to_google_sheets`'s new-row
selection): a current row is kept exactly when its underscore-joined
string-cast key does not occur among the persisted rows' keys. -/
lemma mem_diffNewRows_iff (name : String) (dfc existing : Table) (ks : List String)
    (h : diffKeyCols name dfc.cols existing.cols = some ks) (r : Row) :
    r ∈ diffNewRows name dfc existing ↔
      r ∈ dfc.rows ∧ keyOfRow ks r ∉ List.map (keyOfRow ks) existing.rows := by
  by_cases hm : name = "Main"
  · subst hm
    simp only [diffKeyCols, diffNewRows, beq_self_eq_true, if_true] at h ⊢
    cases h1 : (dfc.cols.contains "_id" && existing.cols.contains "_id") with
    | true =>
      simp only [h1, if_true] at h ⊢
      cases h
      simp [List.mem_filter, keyOfRow_single]
    | false =>
      simp only [h1, if_false, Bool.false_eq_true] at h ⊢
      cases h2 : (dfc.cols.contains "submission_id" && existing.cols.contains "submission_id") with
      | true =>
        simp only [h2, if_true] at h ⊢
        cases h
        simp [List.mem_filter, keyOfRow_single]
      | false =>
        simp only [h2, Bool.false_eq_true, if_false] at h
        cases h
  · have hm' : (name == "Main") = false := by
      simp [hm]
    simp only [diffKeyCols, diffNewRows, hm', Bool.false_eq_true, if_false] at h ⊢
    cases h1 : (dfc.cols.contains "parent_id" && existing.cols.contains "parent_id") with
    | true =>
      simp only [h1, if_true] at h ⊢
      cases h2 : (dfc.cols.contains "item_index" && existing.cols.contains "item_index") with
      | true =>
        simp only [h2, if_true] at h ⊢
        cases h
        simp [List.mem_filter, keyOfRow_pair]
      | false =>
        simp only [h2, Bool.false_eq_true, if_false] at h ⊢
        cases h
        simp [List.mem_filter, keyOfRow_single]
    | false =>
      simp only [h1, Bool.false_eq_true, if_false] at h
      cases h

/-- Current-rows table of the C1 counterexample: one child row whose
string-cast key tuple is `("1", "2_3")`. -/
def c1New : Table :=
  ⟨["parent_id", "item_index"], [[("parent_id", Value.vStr "1"), ("item_index", Value.vStr "2_3")]]⟩

/-- Persisted-rows table of the C1 counterexample: one row whose string-cast
key tuple is `("1_2", "3")`. -/
def c1Old : Table :=
  ⟨["parent_id", "item_index"], [[("parent_id", Value.vStr "1_2"), ("item_index", Value.vStr "3")]]⟩

/-- C1, counterexample.  The claim says the diff keeps exactly the new rows
whose key — the pair `(parent_id, item_index)` compared as string-cast
values — is absent from the persisted keys.  The code compares the
underscore-joined concatenation `.agg("_".join, axis=1)` instead, which
identifies the distinct tuples `("1", "2_3")` and `("1_2", "3")` (both join
to `"1_2_3"`): the new row is dropped although its key tuple occurs nowhere
among the persisted rows, so the set kept is not the one the claim
describes. -/
theorem C1_counterexample :
    diffNewRows "Main_F" c1New c1Old = []
    ∧ c1New.rows =
        [[("parent_id", Value.vStr "1"), ("item_index", Value.vStr "2_3")]]
    ∧ c1Old.rows =
        [[("parent_id", Value.vStr "1_2"), ("item_index", Value.vStr "3")]]
    ∧ (pyStr (getVal [(("parent_id" : String), Value.vStr "1"), ("item_index", Value.vStr "2_3")] "parent_id"),
       pyStr (getVal [(("parent_id" : String), Value.vStr "1"), ("item_index", Value.vStr "2_3")] "item_index"))
      ≠
      (pyStr (getVal [(("parent_id" : String), Value.vStr "1_2"), ("item_index", Value.vStr "3")] "parent_id"),
       pyStr (getVal [(("parent_id" : String), Value.vStr "1_2"), ("item_index", Value.vStr "3")] "item_index")) := by
  refine ⟨by decide, rfl, rfl, by decide⟩

/-- C1 (amended): for every table, when key columns are shared between the
current and persisted tables — `_id` (falling back to `submission_id`) for
the parent table, `(parent_id, item_index)` when both exist on a child
table, else `parent_id` alone — the incremental diff keeps exactly the
newly computed rows whose natural key, compared as the underscore-joined
string-cast of its fields (which coincides with tuple comparison whenever
the cast fields contain no underscore), is not present among the persisted
rows' keys; in particular a batch all of whose keys are already persisted
yields zero new rows for that table. -/
theorem C1_diff_keeps_exactly_key_absent (name : String) (dfc existing : Table)
    (ks : List String) (h : diffKeyCols name dfc.cols existing.cols = some ks) :
    (∀ r, r ∈ diffNewRows name dfc existing ↔
        r ∈ dfc.rows ∧ keyOfRow ks r ∉ List.map (keyOfRow ks) existing.rows)
    ∧ ((∀ r ∈ dfc.rows, keyOfRow ks r ∈ List.map (keyOfRow ks) existing.rows) →
        diffNewRows name dfc existing = []) := by
  refine ⟨mem_diffNewRows_iff name dfc existing ks h, fun hall => ?_⟩
  rw [List.eq_nil_iff_forall_not_mem]
  intro r hr
  have hmem := (mem_diffNewRows_iff name dfc existing ks h r).mp hr
  exact hmem.2 (hall r hmem.1)

/-- Parent-table batch for the C1 witness: both rows re-contain the
persisted key `"5"`. -/
def c1wNew : Table :=
  ⟨["_id", "x"], [[("_id", Value.vStr "5"), ("x", Value.vNum 1)],
                  [("_id", Value.vStr "5"), ("x", Value.vNum 2)]]⟩

def c1wOld : Table :=
  ⟨["_id", "x"], [[("_id", Value.vStr "5"), ("x", Value.vNum 1)]]⟩

/-- Witness for C1: scenario C at a concrete input — a parent batch whose
`_id` `"5"` is already persisted yields zero new rows. -/
theorem C1_witness : diffNewRows "Main" c1wNew c1wOld = [] :=
  (C1_diff_keeps_exactly_key_absent "Main" c1wNew c1wOld ["_id"] (by decide)).2 (by decide)

/-- Child-table batch for the C3 counterexample: two rows sharing the key
`(parent_id = "1", item_index = 0)` — exactly the shape
`expand_employees_in_subdfs` produces when it replicates a child row per
employee token, since the copies keep the parent key unchanged. -/
def c3New : Table :=
  ⟨["parent_id", "item_index", "OperariosCosecha"],
   [[("parent_id", Value.vStr "1"), ("item_index", Value.vNum 0), ("OperariosCosecha", Value.vStr "Ana")],
    [("parent_id", Value.vStr "1"), ("item_index", Value.vNum 0), ("OperariosCosecha", Value.vStr "Luis")]]⟩

def c3Old : Table :=
  ⟨["parent_id", "item_index"], [[("parent_id", Value.vStr "9"), ("item_index", Value.vNum 0)]]⟩

/-- C3, counterexample.  The claim says that after the diff the union of the
persisted rows' keys with the selected new rows' keys has no duplicate key.
The diff only removes new rows whose key is already persisted; it never
deduplicates within the new rows themselves, and the employee expansion
routinely produces several child rows with the same `(parent_id,
item_index)` key.  Here both expanded copies (key `"1_0"`) survive the diff
against a store holding only key `"9_0"`, so the union contains `"1_0"`
twice. -/
theorem C3_counterexample :
    ¬ List.Nodup
        (List.map (keyOfRow ["parent_id", "item_index"])
          (c3Old.rows ++ diffNewRows "Main_F" c3New c3Old)) := by
  decide

/-- C3 (amended): after the incremental diff runs with shared key columns,
every selected new row's key is absent from the persisted rows' keys — no
key occurs both among the persisted rows and among the selected new rows.
Duplicates can still occur within the persisted rows themselves or within
the selected new rows (e.g. rows replicated by the employee expansion), so
the full union need not be duplicate-free. -/
theorem C3_no_key_shared_between_old_and_new (name : String) (dfc existing : Table)
    (ks : List String) (h : diffKeyCols name dfc.cols existing.cols = some ks) :
    ∀ r ∈ diffNewRows name dfc existing,
      keyOfRow ks r ∉ List.map (keyOfRow ks) existing.rows := by
  intro r hr
  exact ((mem_diffNewRows_iff name dfc existing ks h r).mp hr).2

/-- First expanded row of the C3 example batch. -/
def c3RowAna : Row :=
  [("parent_id", Value.vStr "1"), ("item_index", Value.vNum 0), ("OperariosCosecha", Value.vStr "Ana")]

/-- Witness for C3: at the counterexample input, the selected row with key
`"1_0"` indeed differs in key from every persisted row. -/
theorem C3_witness :
    keyOfRow ["parent_id", "item_index"] c3RowAna ∉
      List.map (keyOfRow ["parent_id", "item_index"]) c3Old.rows :=
  C3_no_key_shared_between_old_and_new "Main_F" c3New c3Old ["parent_id", "item_index"]
    (by decide) c3RowAna (by decide)

lemma collapseWsAux_true_eq_dropWhile (l : List Char) :
    collapseWsAux l true = collapseWsAux (List.dropWhile isPyWs l) false := by
  induction l with
  | nil => rfl
  | cons c cs ih =>
    cases hc : isPyWs c with
    | true => simpa [collapseWsAux, hc, List.dropWhile] using ih
    | false => simp [collapseWsAux, hc, List.dropWhile]

/-- Whitespace collapsing stated the way the amended claim reads: each
maximal whitespace run becomes a single underscore (emit `'_'` at the run's
first character and skip the rest of the run). -/
def collapseRuns : List Char → List Char
  | [] => []
  | c :: cs =>
    if isPyWs c then '_' :: collapseRuns (List.dropWhile isPyWs cs)
    else c :: collapseRuns cs
termination_by l => l.length
decreasing_by
  all_goals simp only [List.length_cons]
  · exact Nat.lt_succ_of_le (List.IsSuffix.sublist (List.dropWhile_suffix isPyWs)).length_le
  · exact Nat.lt_succ_self _

lemma collapseWs_eq_collapseRuns_aux :
    ∀ (n : Nat) (l : List Char), l.length ≤ n → collapseWs l = collapseRuns l := by
  intro n
  induction n with
  | zero =>
    intro l hl
    rw [List.eq_nil_of_length_eq_zero (Nat.le_zero.mp hl)]
    simp [collapseWs, collapseWsAux, collapseRuns]
  | succ n ih =>
    intro l hl
    cases l with
    | nil => simp [collapseWs, collapseWsAux, collapseRuns]
    | cons c cs =>
      cases hc : isPyWs c with
      | true =>
        have h1 : collapseWs (c :: cs) = '_' :: collapseWsAux cs true := by
          simp [collapseWs, collapseWsAux, hc]
        rw [h1, collapseWsAux_true_eq_dropWhile]
        have h2 : (List.dropWhile isPyWs cs).length ≤ n := by
          have := (List.IsSuffix.sublist (List.dropWhile_suffix (l := cs) isPyWs)).length_le
          simp at hl
          omega
        rw [show collapseWsAux (List.dropWhile isPyWs cs) false = collapseWs (List.dropWhile isPyWs cs) from rfl]
        rw [ih (List.dropWhile isPyWs cs) h2]
        simp [collapseRuns, hc]
      | false =>
        have h1 : collapseWs (c :: cs) = c :: collapseWs cs := by
          simp [collapseWs, collapseWsAux, hc]
        rw [h1, ih cs (by simp at hl; omega)]
        simp [collapseRuns, hc]

lemma collapseWs_eq_collapseRuns (l : List Char) : collapseWs l = collapseRuns l :=
  collapseWs_eq_collapseRuns_aux l.length l le_rfl

/-- Sanitizer written from the amended claim's words: replace each of the
characters `/ \ ? * [ ] :` with an underscore, collapse each maximal
whitespace run to a single underscore, and truncate to the caller-specified
maximum length. -/
def sanitizeSpec (s : String) (maxlen : Nat) : String :=
  String.mk (List.take maxlen (collapseRuns (List.map replChar s.data)))

lemma mem_collapseWsAux (c : Char) :
    ∀ (l : List Char) (b : Bool), c ∈ collapseWsAux l b →
      c = '_' ∨ (c ∈ l ∧ isPyWs c = false) := by
  intro l
  induction l with
  | nil =>
    intro b h
    cases h
  | cons a as ih =>
    intro b h
    cases ha : isPyWs a with
    | true =>
      cases b with
      | true =>
        simp only [collapseWsAux, ha, if_true] at h
        rcases ih true h with h1 | h2
        · exact Or.inl h1
        · exact Or.inr ⟨List.mem_cons_of_mem a h2.1, h2.2⟩
      | false =>
        simp only [collapseWsAux, ha, if_true] at h
        rcases List.mem_cons.mp h with h1 | h2
        · exact Or.inl h1
        · rcases ih true h2 with h3 | h4
          · exact Or.inl h3
          · exact Or.inr ⟨List.mem_cons_of_mem a h4.1, h4.2⟩
    | false =>
      simp only [collapseWsAux, ha, Bool.false_eq_true, if_false] at h
      rcases List.mem_cons.mp h with h1 | h2
      · rw [h1]
        exact Or.inr ⟨List.mem_cons_self a as, ha⟩
      · rcases ih false h2 with h3 | h4
        · exact Or.inl h3
        · exact Or.inr ⟨List.mem_cons_of_mem a h4.1, h4.2⟩

lemma replChar_not_invalid (x : Char) : replChar x ∉ invalidSheetChars := by
  unfold replChar
  by_cases hx : invalidSheetChars.contains x = true
  · simp only [hx, if_true]
    decide
  · simp only [hx, Bool.false_eq_true, if_false]
    intro hmem
    exact hx (by simpa [list_contains_iff] using hmem)

/-- C8, counterexample.  The claim says invalid characters (`/ \ ? * [ ] :`)
are *stripped* from the table name; the code's
`re.sub(r"[\/\\\?\*\[\]\:]", "_", name)` *replaces* each of them with an
underscore, so `"a/b"` becomes `"a_b"`, not the `"ab"` that stripping would
produce. -/
theorem C8_counterexample :
    sanitize_sheet_name (Value.vStr "a/b") 31 = "a_b" ∧ ("a_b" : String) ≠ "ab" := by
  decide

/-- C8 (amended): for every non-empty table name, the externally visible
sheet identifier is computed by *replacing* each of the characters
`/ \ ? * [ ] :` with an underscore, collapsing each whitespace run to a
single underscore, and truncating to the caller-specified maximum length —
31 for the local spreadsheet export (`save_to_excel`) and 100 for the
remote store (`upload_to_google_sheets`).  Stated as equality with
`sanitizeSpec`, the run-at-a-time reading of that rule, plus the bound and
character-cleanliness consequences. -/
theorem C8_sanitize_replaces_collapses_truncates (s : String) (maxlen : Nat)
    (h : s.isEmpty = false) :
    sanitize_sheet_name (Value.vStr s) maxlen = sanitizeSpec s maxlen
    ∧ (sanitize_sheet_name (Value.vStr s) maxlen).length ≤ maxlen
    ∧ (∀ c ∈ (sanitize_sheet_name (Value.vStr s) maxlen).data,
        isPyWs c = false ∧ c ∉ invalidSheetChars) := by
  have hb : sanitize_sheet_name (Value.vStr s) maxlen
      = String.mk (List.take maxlen (collapseWs (List.map replChar s.data))) := by
    simp [sanitize_sheet_name, h]
  refine ⟨?_, ?_, ?_⟩
  · rw [hb, sanitizeSpec, collapseWs_eq_collapseRuns]
  · rw [hb]
    calc (String.mk (List.take maxlen (collapseWs (List.map replChar s.data)))).length
        = (List.take maxlen (collapseWs (List.map replChar s.data))).length := rfl
      _ ≤ maxlen := by
          rw [List.length_take]
          exact Nat.min_le_left _ _
  · intro c hc
    rw [hb] at hc
    have hc2 : c ∈ collapseWs (List.map replChar s.data) :=
      List.take_subset maxlen _ hc
    rcases mem_collapseWsAux c (List.map replChar s.data) false hc2 with h1 | h2
    · subst h1
      exact ⟨by decide, by decide⟩
    · refine ⟨h2.2, ?_⟩
      rcases List.mem_map.mp h2.1 with ⟨x, _, hx⟩
      rw [← hx]
      exact replChar_not_invalid x

/-- Witness for C8: the code sanitizer and the amended-claim sanitizer agree
on `"a b/c:"`, and both produce `"a_b_c_"` (space collapsed to underscore,
`/` and `:` replaced by underscores). -/
theorem C8_witness :
    sanitize_sheet_name (Value.vStr "a b/c:") 31 = sanitizeSpec "a b/c:" 31
    ∧ sanitizeSpec "a b/c:" 31 = "a_b_c_" :=
  ⟨(C8_sanitize_replaces_collapses_truncates "a b/c:" 31 (by decide)).1,
   by rw [sanitizeSpec, ← collapseWs_eq_collapseRuns]; decide⟩

lemma sheet_name_clean : collapseWs (List.map replChar ("sheet" : String).data) = ("sheet" : String).data := by
  decide

/-- C10 (confirmed): for every input that is not a string or is the empty
string, `sanitize_sheet_name` falls back to the fixed identifier `"sheet"`
truncated to the given maximum length, and (whenever the maximum length is
positive — the program always passes 31 or 100) the result is non-empty. -/
theorem C10_sanitize_fallback (name : Value) (maxlen : Nat)
    (h : ∀ s, name = Value.vStr s → s = "") :
    sanitize_sheet_name name maxlen = String.mk (List.take maxlen ("sheet" : String).data)
    ∧ (maxlen ≠ 0 → sanitize_sheet_name name maxlen ≠ "") := by
  have hbase : sanitize_sheet_name name maxlen
      = String.mk (List.take maxlen (collapseWs (List.map replChar ("sheet" : String).data))) := by
    cases name
    case vStr s =>
      have hs := h s rfl
      subst hs
      rfl
    all_goals rfl
  rw [sheet_name_clean] at hbase
  refine ⟨hbase, fun hm he => ?_⟩
  rw [hbase] at he
  have hd : ("sheet" : String).data = ['s', 'h', 'e', 'e', 't'] := rfl
  cases maxlen with
  | zero => exact hm rfl
  | succ k =>
    rw [hd, List.take_succ_cons] at he
    exact absurd (congrArg String.data he) (by simp)

/-- Witness for C10: the non-string input `7` (with the local export's bound
31) yields exactly `"sheet"`, which is non-empty. -/
theorem C10_witness :
    sanitize_sheet_name (Value.vNum 7) 31 = String.mk (List.take 31 ("sheet" : String).data)
    ∧ sanitize_sheet_name (Value.vNum 7) 31 ≠ "" := by
  have h := C10_sanitize_fallback (Value.vNum 7) 31 (fun s hs => by cases hs)
  exact ⟨h.1, h.2 (by decide)⟩

lemma pySplitSpAux_no_space (l : List Char) :
    ' ' ∉ (pySplitSpAux l).1 ∧ ∀ f ∈ (pySplitSpAux l).2, ' ' ∉ f := by
  induction l with
  | nil => exact ⟨by simp [pySplitSpAux], by simp [pySplitSpAux]⟩
  | cons c cs ih =>
    by_cases hc : c = ' '
    · subst hc
      refine ⟨by simp [pySplitSpAux], ?_⟩
      intro f hf
      simp only [pySplitSpAux, if_true] at hf
      rcases List.mem_cons.mp hf with h1 | h2
      · rw [h1]
        exact ih.1
      · exact ih.2 f h2
    · constructor
      · simp only [pySplitSpAux, hc, if_false]
        intro hmem
        rcases List.mem_cons.mp hmem with h1 | h2
        · exact hc h1.symm
        · exact ih.1 h2
      · intro f hf
        simp only [pySplitSpAux, hc, if_false] at hf
        exact ih.2 f hf

lemma mem_pySplitSp_no_space (l : List Char) (f : List Char) (h : f ∈ pySplitSp l) :
    ' ' ∉ f := by
  rcases List.mem_cons.mp h with h1 | h2
  · rw [h1]
    exact (pySplitSpAux_no_space l).1
  · exact (pySplitSpAux_no_space l).2 f h2

lemma pyStrip_subset (l : List Char) : pyStrip l ⊆ l := by
  intro c hc
  unfold pyStrip at hc
  rw [List.mem_reverse] at hc
  have h1 := (List.IsSuffix.sublist (List.dropWhile_suffix isPyWs)).subset hc
  rw [List.mem_reverse] at h1
  exact (List.IsSuffix.sublist (List.dropWhile_suffix isPyWs)).subset h1

/-- Every token the expansion emits is non-empty and contains no space
character: fragments of `split(" ")` contain no separator, and `strip()`
only removes characters. -/
lemma splitEmployees_tokens (s : String) (e : String) (h : e ∈ splitEmployees s) :
    e.isEmpty = false ∧ e.data.contains ' ' = false := by
  unfold splitEmployees at h
  rw [List.mem_filter] at h
  rcases List.mem_map.mp h.1 with ⟨f, hf, hfe⟩
  refine ⟨by simpa using h.2, ?_⟩
  rw [← hfe]
  have hns : ' ' ∉ pyStrip f := fun hmem =>
    mem_pySplitSp_no_space s.data f hf (pyStrip_subset f hmem)
  simpa [list_contains_iff] using hns

lemma getVal_cons (kv : String × Value) (r : Row) (c : String) :
    getVal (kv :: r) c = if (kv.1 == c) = true then kv.2 else getVal r c := by
  cases hk : (kv.1 == c) with
  | true => simp [getVal, List.find?_cons, hk]
  | false => simp [getVal, List.find?_cons, hk]

lemma setVal_cons (kv : String × Value) (r : Row) (c : String) (v : Value) :
    setVal (kv :: r) c v = (if (kv.1 == c) = true then (c, v) else kv) :: setVal r c v := rfl

lemma getVal_setVal_self (r : Row) (c : String) (v : Value)
    (h : getVal r c ≠ Value.vNull) : getVal (setVal r c v) c = v := by
  induction r with
  | nil => exact absurd rfl h
  | cons kv r ih =>
    rw [setVal_cons]
    cases hk : (kv.1 == c) with
    | true =>
      simp only [hk, if_true]
      rw [getVal_cons]
      simp
    | false =>
      simp only [hk, Bool.false_eq_true, if_false]
      rw [getVal_cons, if_neg (by simp [hk])]
      refine ih ?_
      rw [getVal_cons, if_neg (by simp [hk])] at h
      exact h

lemma getVal_setVal_other (r : Row) (c c' : String) (v : Value) (h : c' ≠ c) :
    getVal (setVal r c' v) c = getVal r c := by
  induction r with
  | nil => rfl
  | cons kv r ih =>
    rw [setVal_cons]
    cases hk : (kv.1 == c') with
    | true =>
      simp only [hk, if_true]
      rw [getVal_cons, getVal_cons]
      have hk1 : (kv.1 == c) = false := by
        rw [eq_of_beq hk]
        simp [h]
      have hc' : (c' == c) = false := by simp [h]
      simp only [hc', hk1, Bool.false_eq_true, if_false]
      exact ih
    | false =>
      simp only [hk, Bool.false_eq_true, if_false]
      rw [getVal_cons, getVal_cons]
      cases hk2 : (kv.1 == c) with
      | true => simp
      | false => simpa [hk2] using ih

/-- True when re-running the expansion cannot split this cell again: the
cell is not a string containing a space. -/
def noSpaceVal : Value → Bool
  | Value.vStr s => !(s.data.contains ' ')
  | _ => true

lemma expandRow_eq_self (c : String) (r : Row) (h : noSpaceVal (getVal r c) = true) :
    expandRow c r = [r] := by
  unfold expandRow
  cases hv : getVal r c
  case vStr s =>
    rw [hv] at h
    simp only [noSpaceVal, Bool.not_eq_true'] at h
    simp only [h, Bool.false_eq_true, if_false]
  all_goals rfl

lemma mem_expandColRows (c : String) (rows : List Row) (r' : Row) :
    r' ∈ expandColRows c rows ↔ ∃ r ∈ rows, r' ∈ expandRow c r := by
  induction rows with
  | nil => simp [expandColRows]
  | cons r rs ih => simp [expandColRows, List.mem_append, ih]

lemma mem_expandRow_noSpace (c : String) (r r' : Row) (h : r' ∈ expandRow c r) :
    noSpaceVal (getVal r' c) = true := by
  cases hv : getVal r c with
  | vStr s =>
    cases hsp : s.data.contains ' ' with
    | true =>
      simp only [expandRow, hv, hsp, if_true] at h
      rcases List.mem_map.mp h with ⟨e, he, hre⟩
      have hne : getVal r c ≠ Value.vNull := by
        rw [hv]
        intro hx
        cases hx
      rw [← hre, getVal_setVal_self r c (Value.vStr e) hne]
      simpa [noSpaceVal] using (splitEmployees_tokens s e he).2
    | false =>
      simp only [expandRow, hv, hsp, Bool.false_eq_true, if_false, List.mem_singleton] at h
      rw [h, hv]
      simpa [noSpaceVal] using hsp
  | vNum n =>
    simp only [expandRow, hv, List.mem_singleton] at h
    rw [h, hv]
    rfl
  | vBool b =>
    simp only [expandRow, hv, List.mem_singleton] at h
    rw [h, hv]
    rfl
  | vNull =>
    simp only [expandRow, hv, List.mem_singleton] at h
    rw [h, hv]
    rfl
  | vNaN =>
    simp only [expandRow, hv, List.mem_singleton] at h
    rw [h, hv]
    rfl
  | vInf b =>
    simp only [expandRow, hv, List.mem_singleton] at h
    rw [h, hv]
    rfl
  | vList xs =>
    simp only [expandRow, hv, List.mem_singleton] at h
    rw [h, hv]
    rfl
  | vObj kvs =>
    simp only [expandRow, hv, List.mem_singleton] at h
    rw [h, hv]
    rfl

lemma mem_expandRow_getVal_other (c' c : String) (hne : c' ≠ c) (r r' : Row)
    (h : r' ∈ expandRow c' r) : getVal r' c = getVal r c := by
  cases hv : getVal r c' with
  | vStr s =>
    cases hsp : s.data.contains ' ' with
    | true =>
      simp only [expandRow, hv, hsp, if_true] at h
      rcases List.mem_map.mp h with ⟨e, _, hre⟩
      rw [← hre, getVal_setVal_other r c c' (Value.vStr e) hne]
    | false =>
      simp only [expandRow, hv, hsp, Bool.false_eq_true, if_false, List.mem_singleton] at h
      rw [h]
  | vNum n => simp only [expandRow, hv, List.mem_singleton] at h; rw [h]
  | vBool b => simp only [expandRow, hv, List.mem_singleton] at h; rw [h]
  | vNull => simp only [expandRow, hv, List.mem_singleton] at h; rw [h]
  | vNaN => simp only [expandRow, hv, List.mem_singleton] at h; rw [h]
  | vInf b => simp only [expandRow, hv, List.mem_singleton] at h; rw [h]
  | vList xs => simp only [expandRow, hv, List.mem_singleton] at h; rw [h]
  | vObj kvs => simp only [expandRow, hv, List.mem_singleton] at h; rw [h]

lemma expandColRows_noSpace (c : String) (rows : List Row) :
    ∀ r' ∈ expandColRows c rows, noSpaceVal (getVal r' c) = true := by
  intro r' hr'
  rcases (mem_expandColRows c rows r').mp hr' with ⟨r, _, hmem⟩
  exact mem_expandRow_noSpace c r r' hmem

lemma expandColRows_getVal_other (c' c : String) (hne : c' ≠ c) (rows : List Row) :
    ∀ r' ∈ expandColRows c' rows, ∃ r ∈ rows, getVal r' c = getVal r c := by
  intro r' hr'
  rcases (mem_expandColRows c' rows r').mp hr' with ⟨r, hr, hmem⟩
  exact ⟨r, hr, mem_expandRow_getVal_other c' c hne r r' hmem⟩

lemma expandColRows_eq_self (c : String) (rows : List Row)
    (h : ∀ r ∈ rows, noSpaceVal (getVal r c) = true) : expandColRows c rows = rows := by
  induction rows with
  | nil => rfl
  | cons r rs ih =>
    show expandRow c r ++ expandColRows c rs = r :: rs
    rw [expandRow_eq_self c r (h r (List.mem_cons_self r rs)),
        ih (fun a ha => h a (List.mem_cons_of_mem r ha))]
    rfl

lemma expandTableCols_noSpace_preserved (cs : List String) (rows : List Row) (c : String)
    (h : ∀ r ∈ rows, noSpaceVal (getVal r c) = true) :
    ∀ r' ∈ expandTableCols cs rows, noSpaceVal (getVal r' c) = true := by
  induction cs generalizing rows with
  | nil => exact h
  | cons c0 cs ih =>
    show ∀ r' ∈ expandTableCols cs (if isEmployeeCol c0 then expandColRows c0 rows else rows),
      noSpaceVal (getVal r' c) = true
    cases he : isEmployeeCol c0 with
    | false =>
      simp only [he, Bool.false_eq_true, if_false]
      exact ih rows h
    | true =>
      simp only [he, if_true]
      by_cases hc : c0 = c
      · subst hc
        exact ih _ (expandColRows_noSpace c0 rows)
      · refine ih _ ?_
        intro r' hr'
        rcases expandColRows_getVal_other c0 c hc rows r' hr' with ⟨r, hr, heq⟩
        rw [heq]
        exact h r hr

lemma expandTableCols_noSpace_of_mem (cs : List String) (rows : List Row) (c : String)
    (hc : c ∈ cs) (he : isEmployeeCol c = true) :
    ∀ r' ∈ expandTableCols cs rows, noSpaceVal (getVal r' c) = true := by
  induction cs generalizing rows with
  | nil => cases hc
  | cons c0 cs ih =>
    show ∀ r' ∈ expandTableCols cs (if isEmployeeCol c0 then expandColRows c0 rows else rows),
      noSpaceVal (getVal r' c) = true
    rcases List.mem_cons.mp hc with h0 | h0
    · subst h0
      simp only [he, if_true]
      exact expandTableCols_noSpace_preserved cs _ c (expandColRows_noSpace c rows)
    · exact ih _ h0

lemma expandTableCols_eq_self (cs : List String) (rows : List Row)
    (h : ∀ c ∈ cs, isEmployeeCol c = true → ∀ r ∈ rows, noSpaceVal (getVal r c) = true) :
    expandTableCols cs rows = rows := by
  induction cs with
  | nil => rfl
  | cons c0 cs ih =>
    show expandTableCols cs (if isEmployeeCol c0 then expandColRows c0 rows else rows) = rows
    cases he : isEmployeeCol c0 with
    | false =>
      simp only [he, Bool.false_eq_true, if_false]
      exact ih (fun c hc hec => h c (List.mem_cons_of_mem c0 hc) hec)
    | true =>
      simp only [he, if_true]
      rw [expandColRows_eq_self c0 rows (h c0 (List.mem_cons_self c0 cs) he)]
      exact ih (fun c hc hec => h c (List.mem_cons_of_mem c0 hc) hec)

lemma expandTable_idem (t : Table) : expandTable (expandTable t) = expandTable t := by
  show Table.mk t.cols (expandTableCols t.cols (expandTableCols t.cols t.rows))
      = Table.mk t.cols (expandTableCols t.cols t.rows)
  rw [expandTableCols_eq_self t.cols (expandTableCols t.cols t.rows)
    (fun c hc hec => expandTableCols_noSpace_of_mem t.cols t.rows c hc hec)]

/-- C5 (confirmed): the employee-list expansion is idempotent — applying
`expand_employees_in_subdfs` to a table set it has already produced yields
the same table set.  Every value the expansion writes into a keyword column
is either a value without a space character or a token produced by
splitting on spaces (hence space-free), so a second pass finds nothing to
split. -/
theorem C5_expand_employees_idempotent (dfs : List (String × Table)) :
    expand_employees_in_subdfs (expand_employees_in_subdfs dfs) =
      expand_employees_in_subdfs dfs := by
  unfold expand_employees_in_subdfs
  rw [List.map_map]
  refine List.map_congr_left ?_
  intro nt _
  show (nt.1, expandTable (expandTable nt.2)) = (nt.1, expandTable nt.2)
  rw [expandTable_idem]

lemma expandColRows_eq_flatMap (c : String) (rows : List Row) :
    expandColRows c rows = List.flatMap rows (expandRow c) := by
  induction rows with
  | nil => rfl
  | cons r rs ih =>
    show expandRow c r ++ expandColRows c rs = List.flatMap (r :: rs) (expandRow c)
    rw [ih, List.flatMap_cons]

/-- Table of the C4 counterexample, a keyword column with three rows:
a cell holding a single space, a cell with a tab-separated pair, and a cell
with one trailing space. -/
def c4Tab : Table :=
  ⟨["OperariosCosecha"],
   [[("OperariosCosecha", Value.vStr " ")],
    [("OperariosCosecha", Value.vStr "Ana\tLuis")],
    [("OperariosCosecha", Value.vStr "Ana ")]]⟩

/-- Output the claim prescribes for `c4Tab`: the all-space cell yields zero
tokens so its row is "left as a single row unchanged"; `"Ana\tLuis"`
contains interior whitespace so it is split into the tokens `"Ana"` and
`"Luis"`; `"Ana "` yields one token so its row is left unchanged. -/
def c4ClaimOut : Table :=
  ⟨["OperariosCosecha"],
   [[("OperariosCosecha", Value.vStr " ")],
    [("OperariosCosecha", Value.vStr "Ana")],
    [("OperariosCosecha", Value.vStr "Luis")],
    [("OperariosCosecha", Value.vStr "Ana ")]]⟩

/-- C4, counterexample.  The code checks for a literal space (`" " in val`)
and drops rows with zero kept tokens, unlike the claim, which speaks of any
interior whitespace character and keeps zero/one-token rows unchanged.  On
`c4Tab` the code (i) deletes the all-space row entirely instead of keeping
it, (ii) does not split `"Ana\tLuis"` because a tab is not a space, and
(iii) rewrites `"Ana "` to the stripped token `"Ana"` instead of leaving
the row unchanged — so the result differs from the claim-prescribed
`c4ClaimOut`. -/
theorem C4_counterexample :
    expandTable c4Tab =
      ⟨["OperariosCosecha"],
       [[("OperariosCosecha", Value.vStr "Ana\tLuis")],
        [("OperariosCosecha", Value.vStr "Ana")]]⟩
    ∧ expandTable c4Tab ≠ c4ClaimOut := by
  exact ⟨by decide, by decide⟩

/-- C4 (amended): for every table and every field whose name contains a
configured substring, rows are processed independently and in order, each
replaced by the rows its own cell yields: a cell that is a string
containing at least one space character (U+0020) yields one copy per token,
where the tokens are the non-empty whitespace-stripped fragments of
splitting on single spaces (so a cell with spaces but no other characters
yields zero rows, i.e. the row is dropped, and a token is stored stripped
of surrounding whitespace); any other cell — including strings whose only
whitespace is not a space — leaves the row unchanged.  Every token emitted
is non-empty and contains no space character. -/
theorem C4_expansion_per_space_token (c : String) (rows : List Row) (r : Row) :
    expandColRows c rows = List.flatMap rows (expandRow c)
    ∧ (∀ s, getVal r c = Value.vStr s → s.data.contains ' ' = true →
        expandRow c r = List.map (fun e => setVal r c (Value.vStr e)) (splitEmployees s))
    ∧ (∀ s, getVal r c = Value.vStr s → s.data.contains ' ' = false →
        expandRow c r = [r])
    ∧ ((∀ s, getVal r c ≠ Value.vStr s) → expandRow c r = [r])
    ∧ (∀ s e, e ∈ splitEmployees s → e.isEmpty = false ∧ e.data.contains ' ' = false) := by
  refine ⟨expandColRows_eq_flatMap c rows, ?_, ?_, ?_, fun s e he => splitEmployees_tokens s e he⟩
  · intro s hv hsp
    unfold expandRow
    rw [hv]
    have hsp' : ' ' ∈ s.data := (list_contains_iff s.data ' ').mp hsp
    simp [hsp']
  · intro s hv hsp
    unfold expandRow
    rw [hv]
    have hsp' : ¬ (' ' ∈ s.data) := by
      intro hm
      rw [(list_contains_iff s.data ' ').mpr hm] at hsp
      exact absurd hsp (by simp)
    simp [hsp']
  · intro h
    unfold expandRow
    cases hv : getVal r c
    case vStr s => exact absurd hv (h s)
    all_goals rfl

/-- Scenario-B row for the C4 witness. -/
def c4wRow : Row :=
  [("parent_id", Value.vStr "1"), ("OperariosCosecha", Value.vStr "Ana Luis")]

/-- Witness for C4: the record with `OperariosCosecha = "Ana Luis"` expands
into two rows holding `"Ana"` and `"Luis"`, all other fields copied. -/
theorem C4_witness :
    expandRow "OperariosCosecha" c4wRow =
      [[("parent_id", Value.vStr "1"), ("OperariosCosecha", Value.vStr "Ana")],
       [("parent_id", Value.vStr "1"), ("OperariosCosecha", Value.vStr "Luis")]] := by
  have h := (C4_expansion_per_space_token "OperariosCosecha" [c4wRow] c4wRow).2.1
    "Ana Luis" (by decide) (by decide)
  rw [h]
  decide

/-- Store of the C2 counterexample: reading table `"A"` raises a
non-`WorksheetNotFound` error, every other read reports "not found". -/
def c2Store : String → ReadResult :=
  fun s => if s = "A" then ReadResult.failure else ReadResult.notFound

def c2TabA : Table := ⟨["x"], [[("x", Value.vNum 1)]]⟩

def c2TabB : Table := ⟨["y"], [[("y", Value.vNum 2)]]⟩

/-- C2, counterexample.  The claim says a store read failing for a reason
other than "not found" aborts only that table and every other table is
still processed to its own terminal outcome.  The code's `try` only catches
`gspread.exceptions.WorksheetNotFound`; any other exception propagates out
of the `for` loop.  Here table `"A"`'s read fails, and table `"B"` — whose
read would succeed — produces no outcome at all: the loop aborts with no
table synced. -/
theorem C2_counterexample :
    upload_to_google_sheets c2Store [("A", c2TabA), ("B", c2TabB)] = ([], true)
    ∧ c2Store (sanitize_sheet_name (Value.vStr "B") 100) ≠ ReadResult.failure := by
  exact ⟨by decide, by decide⟩

/-- C2 (amended): a store read that fails for a reason other than "not
found" aborts the sync of that table *and of every table after it in
iteration order* (the exception propagates out of the loop); only the
tables before it reach their terminal outcomes.  "Not found" itself is
handled by creating the table. -/
theorem C2_failure_aborts_table_and_rest (store : String → ReadResult)
    (pre : List (String × Table)) (n : String) (df : Table) (rest : List (String × Table))
    (hpre : ∀ p ∈ pre, (syncTable store p.1 p.2).isSome = true)
    (hfail : store (sanitize_sheet_name (Value.vStr n) 100) = ReadResult.failure) :
    upload_to_google_sheets store (pre ++ (n, df) :: rest)
      = (List.filterMap (fun p => syncTable store p.1 p.2) pre, true) := by
  induction pre with
  | nil =>
    show upload_to_google_sheets store ((n, df) :: rest) = ([], true)
    simp [upload_to_google_sheets, syncTable, hfail]
  | cons p pre ih =>
    obtain ⟨o, ho⟩ := Option.isSome_iff_exists.mp (hpre p (List.mem_cons_self p pre))
    cases p with
    | mk pn pdf =>
      show upload_to_google_sheets store ((pn, pdf) :: (pre ++ (n, df) :: rest)) = _
      simp only [upload_to_google_sheets]
      rw [ho, ih (fun a ha => hpre a (List.mem_cons_of_mem _ ha))]
      simp [List.filterMap_cons, ho]

/-- Store of the C2 witness: only table `"B"`'s read raises. -/
def c2wStore : String → ReadResult :=
  fun s => if s = "B" then ReadResult.failure else ReadResult.notFound

/-- Witness for C2: with tables `A` then `B` and a read failure on `B`,
table `A` reaches its outcome (created, one row appended) and the loop then
aborts. -/
theorem C2_witness :
    upload_to_google_sheets c2wStore [("A", c2TabA), ("B", c2TabB)]
      = ([⟨"A", true, ["x"], [[("x", Value.vNum 1)]]⟩], true) := by
  have h := C2_failure_aborts_table_and_rest c2wStore [("A", c2TabA)] "B" c2TabB []
    (by decide) (by decide)
  exact h.trans (by decide)

/-- C7 (confirmed): when the destination store has no table of the given
(sanitized) name, the sync creates it with the current batch's column
header and appends every computed row as new — the diff drops nothing: the
appended rows are exactly the cleaned batch rows, same count and columns as
the computed table. -/
theorem C7_create_with_header_append_all (store : String → ReadResult) (name : String)
    (df : Table) (h : store (sanitize_sheet_name (Value.vStr name) 100) = ReadResult.notFound) :
    syncTable store name df =
      some ⟨sanitize_sheet_name (Value.vStr name) 100, true,
            (cleanForUpload df).cols, (cleanForUpload df).rows⟩
    ∧ (cleanForUpload df).cols = df.cols
    ∧ (cleanForUpload df).rows.length = df.rows.length := by
  refine ⟨?_, rfl, by simp [cleanForUpload]⟩
  simp [syncTable, h]

def c7Store : String → ReadResult := fun _ => ReadResult.notFound

def c7Tab : Table := ⟨["_id", "F"], [[("_id", Value.vNum 1), ("F", Value.vNaN)]]⟩

/-- Witness for C7 (scenario D): with no worksheet named `Main_F` in the
store, the sync creates it with the batch's header `["_id", "F"]` and
appends the batch's single (cleaned) row. -/
theorem C7_witness :
    syncTable c7Store "Main_F" c7Tab =
      some ⟨"Main_F", true, ["_id", "F"],
            [[("_id", Value.vNum 1), ("F", Value.vStr "")]]⟩ := by
  have h := (C7_create_with_header_append_all c7Store "Main_F" c7Tab (by decide)).1
  exact h.trans (by decide)

lemma serializeParentCell_not_nested (v : Value) :
    isNested (serializeParentCell v) = false := by
  cases v <;> rfl

lemma serializeRowAt_cons (col : String) (kv : String × Value) (r : Row) :
    serializeRowAt col (kv :: r)
      = (if (kv.1 == col) = true then (kv.1, serializeParentCell kv.2) else kv)
          :: serializeRowAt col r := rfl

lemma serializeRowAt_not_nested_self (col : String) (r : Row) :
    isNested (getVal (serializeRowAt col r) col) = false := by
  induction r with
  | nil => rfl
  | cons kv r ih =>
    rw [serializeRowAt_cons]
    cases hk : (kv.1 == col) with
    | true =>
      simp only [hk, if_true]
      rw [getVal_cons]
      simp only [hk, if_true]
      exact serializeParentCell_not_nested kv.2
    | false =>
      simp only [hk, Bool.false_eq_true, if_false]
      rw [getVal_cons]
      simp only [hk, Bool.false_eq_true, if_false]
      exact ih

lemma serializeRowAt_not_nested_other (col c : String) (r : Row)
    (h : isNested (getVal r c) = false) :
    isNested (getVal (serializeRowAt col r) c) = false := by
  induction r with
  | nil => exact h
  | cons kv r ih =>
    rw [serializeRowAt_cons]
    rw [getVal_cons] at h
    cases hk2 : (kv.1 == c) with
    | true =>
      simp only [hk2, if_true] at h
      cases hk : (kv.1 == col) with
      | true =>
        simp only [hk, if_true]
        rw [getVal_cons]
        simp only [hk2, if_true]
        exact serializeParentCell_not_nested kv.2
      | false =>
        simp only [hk, Bool.false_eq_true, if_false]
        rw [getVal_cons]
        simp only [hk2, if_true]
        exact h
    | false =>
      simp only [hk2, Bool.false_eq_true, if_false] at h
      have hkeep : ((if (kv.1 == col) = true then (kv.1, serializeParentCell kv.2) else kv).1 == c)
          = false := by
        cases hk : (kv.1 == col) with
        | true => simpa [hk] using hk2
        | false => simpa [hk] using hk2
      rw [getVal_cons, hkeep]
      simp only [Bool.false_eq_true, if_false]
      exact ih h

lemma rows_not_nested_of_any_false {rows : List Row} {col : String}
    (hm : List.any rows (fun r => isNested (getVal r col)) = false) :
    ∀ r ∈ rows, isNested (getVal r col) = false := by
  intro r hr
  simpa using List.any_eq_false.mp hm r hr

lemma splitGo_cols (p : String) (cs : List String) :
    ∀ (df : Table) (subs : List (String × Table)),
      (splitGo p cs df subs).1.cols = df.cols := by
  induction cs with
  | nil => intro df subs; rfl
  | cons col cs ih =>
    intro df subs
    cases hm : List.any df.rows (fun r => isNested (getVal r col)) with
    | true =>
      simp only [splitGo, hm, if_true]
      rw [ih]
    | false =>
      simp only [splitGo, hm, Bool.false_eq_true, if_false]
      exact ih df subs

lemma splitGo_preserve_not_nested (p : String) (cs : List String) (c : String) :
    ∀ (df : Table) (subs : List (String × Table)),
      (∀ r ∈ df.rows, isNested (getVal r c) = false) →
      ∀ r ∈ (splitGo p cs df subs).1.rows, isNested (getVal r c) = false := by
  induction cs with
  | nil => intro df subs h; exact h
  | cons col cs ih =>
    intro df subs h
    cases hm : List.any df.rows (fun r => isNested (getVal r col)) with
    | true =>
      simp only [splitGo, hm, if_true]
      refine ih _ _ ?_
      intro r' hr'
      rcases List.mem_map.mp hr' with ⟨r, hr, hmap⟩
      rw [← hmap]
      exact serializeRowAt_not_nested_other col c r (h r hr)
    | false =>
      simp only [splitGo, hm, Bool.false_eq_true, if_false]
      exact ih df subs h

lemma splitGo_parent_not_nested (p : String) (cs : List String) (c : String) (hc : c ∈ cs) :
    ∀ (df : Table) (subs : List (String × Table)),
      ∀ r ∈ (splitGo p cs df subs).1.rows, isNested (getVal r c) = false := by
  induction cs with
  | nil => cases hc
  | cons col cs ih =>
    intro df subs
    rcases List.mem_cons.mp hc with h0 | h0
    · subst h0
      cases hm : List.any df.rows (fun r => isNested (getVal r c)) with
      | true =>
        simp only [splitGo, hm, if_true]
        refine splitGo_preserve_not_nested p cs c _ _ ?_
        intro r' hr'
        rcases List.mem_map.mp hr' with ⟨r, _, hmap⟩
        rw [← hmap]
        exact serializeRowAt_not_nested_self c r
      | false =>
        simp only [splitGo, hm, Bool.false_eq_true, if_false]
        exact splitGo_preserve_not_nested p cs c df subs (rows_not_nested_of_any_false hm)
    · cases hm : List.any df.rows (fun r => isNested (getVal r col)) with
      | true =>
        simp only [splitGo, hm, if_true]
        exact ih h0 _ _
      | false =>
        simp only [splitGo, hm, Bool.false_eq_true, if_false]
        exact ih h0 df subs

lemma serializeCellUpload_not_nested (v : Value) :
    isNested (serializeCellUpload (cleanCellUpload v)) = false := by
  cases v <;> rfl

/-- Batch of the C6 counterexample: field `F` is a list whose single object
element itself holds a list under key `g` (two levels of nesting). -/
def c6Df : Table :=
  ⟨["_id", "F"],
   [[("_id", Value.vNum 1),
     ("F", Value.vList [Value.vObj [("g", Value.vList [Value.vNum 2])]])]]⟩

/-- C6, counterexample.  The claim says every field value of every output
table is a scalar and every nested list/object is serialized or expanded
into its own child row.  `split_nested_data` only serializes the *parent*
column and spreads one level of nesting: the child row for `F` carries the
object's field `g` with its value `[2]` verbatim — a list value in an
output table, neither serialized to JSON nor expanded into a child row
(the local export writes these tables as-is; only the remote upload
re-serializes). -/
theorem C6_counterexample :
    (split_nested_data c6Df "Main").2 =
      [("Main_F",
        ⟨["parent_id", "item_index", "g"],
         [[("parent_id", Value.vNum 1), ("item_index", Value.vNum 0),
           ("g", Value.vList [Value.vNum 2])]]⟩)]
    ∧ isNested (Value.vList [Value.vNum 2]) = true := by
  exact ⟨by decide, rfl⟩

/-- C6 (amended): after `split_nested_data`, every cell of the *parent*
table is a scalar — each column that held a list/object is serialized to
its JSON string in place — and every cell of every table prepared for the
*remote store* (`cleanForUpload`, which the upload applies to each table)
is a scalar.  Child tables handed to the local export may still carry
lists/objects at the second nesting level. -/
theorem C6_no_nested_in_parent_and_upload (df : Table) (p : String) (t : Table) :
    (∀ r ∈ (split_nested_data df p).1.rows, ∀ c ∈ (split_nested_data df p).1.cols,
        isNested (getVal r c) = false)
    ∧ (∀ r ∈ (cleanForUpload t).rows, ∀ kv ∈ r, isNested kv.2 = false) := by
  constructor
  · intro r hr c hcols
    have hcols' : c ∈ df.cols := by
      rw [split_nested_data, splitGo_cols p df.cols df []] at hcols
      exact hcols
    exact splitGo_parent_not_nested p df.cols c hcols' df [] r hr
  · intro r hr kv hkv
    rcases List.mem_map.mp hr with ⟨r0, _, hmap⟩
    rw [← hmap] at hkv
    rcases List.mem_map.mp hkv with ⟨kv0, _, hkmap⟩
    rw [← hkmap]
    exact serializeCellUpload_not_nested kv0.2

/-- Parent row `split_nested_data` produces for `c6Df`: the nested column
`F` serialized to its JSON text. -/
def c6ParentRow : Row :=
  [("_id", Value.vNum 1), ("F", Value.vStr "[\x7b\"g\": [2]\x7d]")]

/-- Witness for C6: on the counterexample batch, the parent table's `F`
cell is the serialized JSON string, not a nested value. -/
theorem C6_witness : isNested (getVal c6ParentRow "F") = false :=
  (C6_no_nested_in_parent_and_upload c6Df "Main" c6Df).1 c6ParentRow (by decide) "F" (by decide)

lemma cleanSubCell_not_nanInf (x : Option Value) : isNaNInf (cleanSubCell x) = false := by
  cases x with
  | none => rfl
  | some v => cases v <;> rfl

lemma mkSubDf_clean (rows : List Row) :
    ∀ r ∈ (mkSubDf rows).rows, ∀ kv ∈ r, isNaNInf kv.2 = false := by
  intro r hr kv hkv
  rcases List.mem_map.mp hr with ⟨r0, _, hmap⟩
  rw [← hmap] at hkv
  rcases List.mem_map.mp hkv with ⟨c, _, hkmap⟩
  rw [← hkmap]
  exact cleanSubCell_not_nanInf _

lemma splitGo_subs_clean (p : String) (cs : List String) :
    ∀ (df : Table) (subs : List (String × Table)),
      (∀ nt ∈ subs, ∀ r ∈ nt.2.rows, ∀ kv ∈ r, isNaNInf kv.2 = false) →
      ∀ nt ∈ (splitGo p cs df subs).2, ∀ r ∈ nt.2.rows, ∀ kv ∈ r, isNaNInf kv.2 = false := by
  induction cs with
  | nil => intro df subs h; exact h
  | cons col cs ih =>
    intro df subs h
    cases hm : List.any df.rows (fun r => isNested (getVal r col)) with
    | false =>
      simp only [splitGo, hm, Bool.false_eq_true, if_false]
      exact ih df subs h
    | true =>
      simp only [splitGo, hm, if_true]
      refine ih _ _ ?_
      cases hempty : (buildChildRows df col).isEmpty with
      | true =>
        simp only [hempty, if_true]
        exact h
      | false =>
        simp only [hempty, Bool.false_eq_true, if_false]
        intro nt hnt
        rcases List.mem_append.mp hnt with h1 | h2
        · exact h nt h1
        · rcases List.mem_singleton.mp h2 with rfl
          exact mkSubDf_clean (buildChildRows df col)

/-- Batch of the C9 counterexample: a plain scalar column `G` holding the
float `inf` (no nested value anywhere, so `split_nested_data` never touches
the column). -/
def c9Df : Table :=
  ⟨["_id", "G"], [[("_id", Value.vNum 1), ("G", Value.vInf true)]]⟩

/-- C9, counterexample.  The claim says every NaN/infinite value is
normalized to the empty string before serialization/output for *both* the
local export and the remote store.  The local-export path
(`split_nested_data` → `expand_employees_in_subdfs` → `save_to_excel`)
normalizes only child tables (at construction) and NaN in parent columns
that contained nested values; a parent column with no nested values is
never cleaned, so the `inf` in column `G` reaches the local export
untouched. -/
theorem C9_counterexample :
    save_to_excel (expand_employees_in_subdfs
        (("Main", (split_nested_data c9Df "Main").1) :: (split_nested_data c9Df "Main").2))
      = [("Main", ⟨["_id", "G"], [[("_id", Value.vNum 1), ("G", Value.vInf true)]]⟩)]
    ∧ isNaNInf (Value.vInf true) = true := by
  exact ⟨by decide, rfl⟩

/-- C9 (amended): NaN and infinite values are normalized to the empty
string on the *remote-store* path — every child table is normalized at
construction (`replace([inf, -inf], nan).fillna("")` in
`split_nested_data`), and `cleanForUpload` normalizes every cell of every
table before rows are appended to the remote store — but the local export
receives the parent table unnormalized, where NaN/inf can persist in
columns that held no nested value. -/
theorem C9_no_nanInf_in_children_and_upload (df : Table) (p : String) (t : Table) :
    (∀ nt ∈ (split_nested_data df p).2, ∀ r ∈ nt.2.rows, ∀ kv ∈ r, isNaNInf kv.2 = false)
    ∧ (∀ r ∈ (cleanForUpload t).rows, ∀ kv ∈ r, isNaNInf kv.2 = false) := by
  constructor
  · exact splitGo_subs_clean p df.cols df [] (by intro nt hnt; cases hnt)
  · intro r hr kv hkv
    rcases List.mem_map.mp hr with ⟨r0, _, hmap⟩
    rw [← hmap] at hkv
    rcases List.mem_map.mp hkv with ⟨kv0, _, hkmap⟩
    rw [← hkmap]
    cases hv : kv0.2 <;> rfl

/-- Batch for the C9 witness: field `F` is a list containing an `inf`
element, so the child table holds a `value` cell that the construction-time
normalization must clean. -/
def c9wDf : Table :=
  ⟨["_id", "F"], [[("_id", Value.vNum 1), ("F", Value.vList [Value.vInf true])]]⟩

/-- Child row `split_nested_data` produces for `c9wDf`: the `inf` element
was normalized to the empty string. -/
def c9wChildRow : Row :=
  [("parent_id", Value.vNum 1), ("item_index", Value.vNum 0), ("value", Value.vStr "")]

/-- Witness for C9: on `c9wDf` the child table's `value` cell — built from
an `inf` element — is not NaN/inf (it was normalized to `""`). -/
theorem C9_witness : isNaNInf (("value", Value.vStr "").2) = false :=
  (C9_no_nanInf_in_children_and_upload c9wDf "Main" c9wDf).1
    ("Main_F", ⟨["parent_id", "item_index", "value"], [c9wChildRow]⟩) (by decide)
    c9wChildRow (by decide) ("value", Value.vStr "") (by decide)
